import Mathlib

/-!
Verification development for the Chemyx syringe-pump GUI
(`src/my_chemyx_gui.py`).

The development shallowly embeds the step-execution engine of the
repository: the unified pump-operation primitive
(`StepExecutor._execute_pump_operation` and its callers `_pump_volume`,
`_pump_time`, `start_jog`), the step interpreter
(`StepExecutor.execute_steps` / `execute_single_step` with its loop
stack), the parameter cache (`CachedConnection`), and the JSON
persistence of step programs (`save_program` / `load_program`).

Modelling conventions:
* Python floats are modelled as rationals; the expressions the code
  computes are linear arithmetic on literals, so no rounding behaviour
  is relevant to the claims.
* Hardware methods on the vendor connection are modelled as emitted
  call events (`HwCall`); `time.sleep` performs no hardware call and is
  modelled as a no-op.
* A Python `NameError` raised by reading an unassigned local variable
  is modelled by an explicit lookup in the local-variable environment
  that holds exactly the parameters the function has bound at that
  point.
-/

namespace Chemyx

/-- Execution configuration (`self.config` of `StepExecutor`); only the
`diameter` entry is read by the pump primitive. -/
structure Config where
  diameter : ℚ
deriving DecidableEq

/-- A call made to the wrapped hardware connection. -/
inductive HwCall where
  | setUnits (units : String)
  | setDiameter (d : ℚ)
  | setMode (m : ℕ)
  | setVolume (v : ℚ)
  | setRate (r : ℚ)
  | startPump
deriving DecidableEq

/-- Python exceptions that the embedded fragment can raise. -/
inductive PyError where
  | nameError (var : String)
deriving DecidableEq

/-- `str(e)` for the modelled exceptions; a `NameError` for variable `x`
prints as `name 'x' is not defined`. -/
def pyErrorMsg : PyError → String
  | PyError.nameError x => ("name \x27") ++ x ++ ("\x27 is not defined")

/-- Reading a Python local variable: returns its value when it is bound,
and raises `NameError` otherwise. -/
def lookupLocal (locals : List (String × ℚ)) (x : String) : Except PyError ℚ :=
  match locals.find? (fun p => p.1 == x) with
  | some p => Except.ok p.2
  | none => Except.error (PyError.nameError x)

/-- `StepExecutor._execute_pump_operation(volume, rate, wait_for_completion)`.

The Python body is:
```
self.connection.setUnits('mL/min')
self.connection.setDiameter(self.config['diameter'])
if volume < 0:
    self.connection.setMode(1)  # Infuse mode
else:
    self.connection.setMode(0)  # Withdraw mode
self.connection.setVolume(actual_volume)
self.connection.setRate(abs(rate))
self.connection.startPump()
if wait_for_completion and actual_volume > 0:
    wait_time = actual_volume / abs(rate) * 60
    time.sleep(wait_time + 1)
```
The only locals assigned before the `setVolume` line are the parameters
`volume` and `rate` (plus the boolean `wait_for_completion`), so the
read of `actual_volume` is a lookup in that environment.  The result is
the list of hardware calls that were issued together with the outcome. -/
def executePumpOperation (cfg : Config) (volume rate : ℚ)
    (waitForCompletion : Bool) : List HwCall × Except PyError Unit :=
  let calls : List HwCall :=
    [HwCall.setUnits ("mL/min"), HwCall.setDiameter cfg.diameter]
  let calls := calls ++ [HwCall.setMode (if volume < 0 then 1 else 0)]
  match lookupLocal [(("volume"), volume), (("rate"), rate)] ("actual_volume") with
  | Except.error e => (calls, Except.error e)
  | Except.ok actualVolume =>
      let calls := calls ++
        [HwCall.setVolume actualVolume, HwCall.setRate |rate|, HwCall.startPump]
      -- the completion wait is a sleep: no hardware call
      let _wait := waitForCompletion && decide (actualVolume > 0)
      (calls, Except.ok ())

/-- `StepExecutor._pump_volume(volume, rate)`. -/
def pumpVolume (cfg : Config) (volume rate : ℚ) : List HwCall × Except PyError Unit :=
  executePumpOperation cfg volume rate true

/-- The volume derived by `StepExecutor._pump_time` from the duration and
the rate:
```
volume = abs(rate) * duration / 60
if rate < 0:
    volume = -volume
``` -/
def pumpTimeDerivedVolume (duration rate : ℚ) : ℚ :=
  let volume := |rate| * duration / 60
  if rate < 0 then -volume else volume

/-- `StepExecutor._pump_time(duration, rate)`: derives the signed volume,
then calls the primitive with `abs(rate)` and no completion wait, then
sleeps `duration + 1` seconds (no hardware call). -/
def pumpTime (cfg : Config) (duration rate : ℚ) : List HwCall × Except PyError Unit :=
  executePumpOperation cfg (pumpTimeDerivedVolume duration rate) |rate| false

/-- `MyChemyxGUI.start_jog(fill_direction)`: volume is `-50` for fill
(infuse) and `50` for empty (withdraw); the rate comes from the jog
spin box; no completion wait.  The surrounding `try/except` logs the
error instead of starting the pump. -/
def startJog (cfg : Config) (fillDirection : Bool) (rate : ℚ) :
    List HwCall × Except PyError Unit :=
  executePumpOperation cfg (if fillDirection then -50 else 50) rate false

theorem executePumpOperation_eq (cfg : Config) (volume rate : ℚ) (w : Bool) :
    executePumpOperation cfg volume rate w =
      ([HwCall.setUnits ("mL/min"), HwCall.setDiameter cfg.diameter,
        HwCall.setMode (if volume < 0 then 1 else 0)],
       Except.error (PyError.nameError ("actual_volume"))) := rfl

/-- C2: every call of the pump primitive raises `NameError` for
`actual_volume` after `setUnits`, `setDiameter`, `setMode` and before
`setVolume` / `setRate` / `startPump`; consequently `_pump_volume`,
`_pump_time` and the jog path all fail without starting the pump. -/
theorem pump_operation_always_raises_name_error
    (cfg : Config) (volume rate duration : ℚ) (w fillDirection : Bool) :
    executePumpOperation cfg volume rate w =
      ([HwCall.setUnits ("mL/min"), HwCall.setDiameter cfg.diameter,
        HwCall.setMode (if volume < 0 then 1 else 0)],
       Except.error (PyError.nameError ("actual_volume"))) ∧
    (∀ q : ℚ, HwCall.setVolume q ∉ (executePumpOperation cfg volume rate w).1 ∧
              HwCall.setRate q ∉ (executePumpOperation cfg volume rate w).1) ∧
    HwCall.startPump ∉ (executePumpOperation cfg volume rate w).1 ∧
    (pumpVolume cfg volume rate).2 =
      Except.error (PyError.nameError ("actual_volume")) ∧
    HwCall.startPump ∉ (pumpVolume cfg volume rate).1 ∧
    (pumpTime cfg duration rate).2 =
      Except.error (PyError.nameError ("actual_volume")) ∧
    HwCall.startPump ∉ (pumpTime cfg duration rate).1 ∧
    (startJog cfg fillDirection rate).2 =
      Except.error (PyError.nameError ("actual_volume")) ∧
    HwCall.startPump ∉ (startJog cfg fillDirection rate).1 := by
  refine ⟨rfl, ?_, ?_, rfl, ?_, rfl, ?_, rfl, ?_⟩ <;>
    simp [executePumpOperation_eq, pumpVolume, pumpTime, startJog]

/-- C1: at the concrete input volume = 5 mL, rate = 2 mL/min the
`pump_volume` step chooses withdraw mode (`setMode 0`, matching the
spec), but then raises `NameError` on the unassigned `actual_volume`,
so the `setRate(abs(rate))` call the claim requires is never issued and
the pump never starts. -/
theorem pump_volume_never_reaches_setRate :
    (pumpVolume ⟨1⟩ 5 2).1 =
      [HwCall.setUnits ("mL/min"), HwCall.setDiameter 1, HwCall.setMode 0] ∧
    (∀ q : ℚ, HwCall.setRate q ∉ (pumpVolume ⟨1⟩ 5 2).1) ∧
    HwCall.startPump ∉ (pumpVolume ⟨1⟩ 5 2).1 ∧
    (pumpVolume ⟨1⟩ 5 2).2 = Except.error (PyError.nameError ("actual_volume")) := by
  refine ⟨by norm_num [pumpVolume, executePumpOperation_eq], ?_, ?_, rfl⟩ <;>
    simp [pumpVolume, executePumpOperation_eq]

/-- C5 counterexample: for the pump_time step with time `T = 0` and rate
`R = -1` the derived volume is `0`, which is not negative, contradicting
the claim that the sign of the derived volume equals the sign of `R`
(negative whenever `R < 0`). -/
theorem pump_time_derived_volume_zero_time :
    pumpTimeDerivedVolume 0 (-1) = 0 ∧ ¬ pumpTimeDerivedVolume 0 (-1) < 0 := by
  norm_num [pumpTimeDerivedVolume]

/-- C5 (amended): for a pump_time step with time `T > 0` and rate `R`,
the volume passed to the pump-operation primitive is
`abs(R) * T / 60`, negated exactly when `R < 0`; it is negative when
`R < 0` and non-negative when `R ≥ 0`. -/
theorem pump_time_derived_volume_spec (T R : ℚ) (hT : 0 < T) :
    (R < 0 → pumpTimeDerivedVolume T R = -(|R| * T / 60) ∧
       pumpTimeDerivedVolume T R < 0) ∧
    (0 ≤ R → pumpTimeDerivedVolume T R = |R| * T / 60 ∧
       0 ≤ pumpTimeDerivedVolume T R) ∧
    (∀ cfg : Config,
      pumpTime cfg T R =
        executePumpOperation cfg (pumpTimeDerivedVolume T R) |R| false) := by
  refine ⟨fun hR => ⟨by simp [pumpTimeDerivedVolume, hR], ?_⟩,
          fun hR => ⟨by simp [pumpTimeDerivedVolume, not_lt.mpr hR], ?_⟩,
          fun cfg => rfl⟩
  · have habs : 0 < |R| := abs_pos.mpr (ne_of_lt hR)
    have : 0 < |R| * T / 60 := by positivity
    simp only [pumpTimeDerivedVolume, if_pos hR]
    linarith
  · have habs : 0 ≤ |R| := abs_nonneg R
    have : 0 ≤ |R| * T / 60 := by positivity
    simpa [pumpTimeDerivedVolume, not_lt.mpr hR] using this

/-- Witness for the amended C5 theorem at `T = 30`, `R = -2`. -/
theorem pump_time_derived_volume_spec_witness :
    (0 : ℚ) < 30 ∧
    (((-2 : ℚ) < 0 → pumpTimeDerivedVolume 30 (-2) = -(|(-2 : ℚ)| * 30 / 60) ∧
        pumpTimeDerivedVolume 30 (-2) < 0) ∧
     ((0 : ℚ) ≤ -2 → pumpTimeDerivedVolume 30 (-2) = |(-2 : ℚ)| * 30 / 60 ∧
        0 ≤ pumpTimeDerivedVolume 30 (-2)) ∧
     (∀ cfg : Config,
       pumpTime cfg 30 (-2) =
         executePumpOperation cfg (pumpTimeDerivedVolume 30 (-2)) |(-2 : ℚ)| false)) :=
  ⟨by norm_num, pump_time_derived_volume_spec 30 (-2) (by norm_num)⟩

/-! ## The parameter cache (`CachedConnection`) -/

/-- Atomic Python values appearing as arguments of the cached
parameter-setting methods.  Python numeric equality (`1 == 1.0`) is
value equality, which the single rational constructor captures. -/
inductive PVAtom where
  | num (q : ℚ)
  | str (s : String)
  | none
deriving DecidableEq

/-- A Python argument value: an atom, a list of atoms, or a tuple of
atoms.  Lists and tuples with equal elements are distinct Python values
(`[1,2] == (1,2)` is false), which the distinct constructors capture.
(The hashability requirement of the cache dictionary keeps nested
containers out of the cacheable-argument domain.) -/
inductive PV where
  | atom (a : PVAtom)
  | list (l : List PVAtom)
  | tuple (l : List PVAtom)
deriving DecidableEq

/-- `make_hashable` inside `CachedConnection._make_param_value`: converts
a list to a tuple (of the same elements) and leaves other values
unchanged.  (The dictionary branch of the Python helper is not
representable in the hashable-argument domain modelled here.) -/
def makeHashable : PV → PV
  | PV.list l => PV.tuple l
  | v => v

/-- Insertion of a pair into a key-sorted association list, ordered by
the string key (the order `sorted` produces on the keyword items). -/
def insertSorted (p : String × PV) : List (String × PV) → List (String × PV)
  | [] => [p]
  | q :: rest => if p.1 < q.1 then p :: q :: rest else q :: insertSorted p rest

/-- Sorting keyword arguments by key, as `sorted` does in
`_make_param_value`. -/
def sortByKey : List (String × PV) → List (String × PV)
  | [] => []
  | p :: rest => insertSorted p (sortByKey rest)

/-- The hashable representation of a call's arguments
(`CachedConnection._make_param_value(args, kwargs)`): the tuple of
`make_hashable`-converted positional arguments paired with the sorted
tuple of `make_hashable`-converted keyword items. -/
def makeParamValue (args : List PV) (kwargs : List (String × PV)) :
    List PV × List (String × PV) :=
  (args.map makeHashable, sortByKey (kwargs.map (fun p => (p.1, makeHashable p.2))))

/-- The wrapped connection attributes consulted by
`_make_cache_key`. -/
structure ConnInfo where
  multipump : Bool
  currentPump : ℕ
deriving DecidableEq

/-- `CachedConnection._make_cache_key(method_name)`: the method name,
suffixed with the current pump number in multi-pump setups. -/
def makeCacheKey (conn : ConnInfo) (name : String) : String :=
  if conn.multipump then name ++ ("_pump_") ++ toString conn.currentPump else name

/-- The cache dictionary: method key to last parameter value sent. -/
def Cache := List (String × (List PV × List (String × PV)))

/-- Dictionary lookup `self.cache[cache_key]` (with containment test). -/
def cacheLookup : Cache → String → Option (List PV × List (String × PV))
  | [], _ => Option.none
  | p :: rest, k => if p.1 == k then some p.2 else cacheLookup rest k

/-- Dictionary assignment `self.cache[cache_key] = param_value`. -/
def cacheInsert : Cache → String → (List PV × List (String × PV)) → Cache
  | [], k, v => [(k, v)]
  | p :: rest, k, v =>
      if p.1 == k then (p.1, v) :: rest else p :: cacheInsert rest k v

/-- `CachedConnection.reset_cache`: `self.cache.clear()`. -/
def resetCache (_c : Cache) : Cache := []

/-- The set of cacheable method names
(`CachedConnection.cacheable_methods`). -/
def cacheableMethods : List String :=
  [("setUnits"), ("setDiameter"), ("setVolume"), ("setMode"),
   ("setRate"), ("setDelay"), ("setTime"), ("setPump")]

/-- Result of one intercepted method call: whether the underlying
hardware method was invoked, the value returned to the caller, and the
cache afterwards. -/
structure CallResult where
  invoked : Bool
  ret : PV
  cache : Cache

/-- One call through `CachedConnection.__getattr__`'s `cached_method`
(with `hw` the behaviour of the underlying connection method):

* a non-cacheable method passes through to the hardware unchanged;
* a cacheable method whose cache entry equals the new parameter value
  skips the hardware and returns `None`;
* otherwise the hardware method is called and its parameter value is
  recorded. -/
def cachedCall (hw : String → List PV → List (String × PV) → PV)
    (conn : ConnInfo) (cache : Cache) (name : String)
    (args : List PV) (kwargs : List (String × PV)) : CallResult :=
  if cacheableMethods.contains name then
    let cacheKey := makeCacheKey conn name
    let paramValue := makeParamValue args kwargs
    match cacheLookup cache cacheKey with
    | some stored =>
        if stored = paramValue then
          { invoked := false, ret := PV.atom PVAtom.none, cache := cache }
        else
          { invoked := true, ret := hw name args kwargs,
            cache := cacheInsert cache cacheKey paramValue }
    | Option.none =>
        { invoked := true, ret := hw name args kwargs,
          cache := cacheInsert cache cacheKey paramValue }
  else
    { invoked := true, ret := hw name args kwargs, cache := cache }

theorem cacheLookup_insert (c : Cache) (k : String) (v) :
    cacheLookup (cacheInsert c k v) k = some v := by
  induction c with
  | nil => simp [cacheInsert, cacheLookup]
  | cons p rest ih =>
      by_cases h : p.1 == k
      · simp [cacheInsert, cacheLookup, h]
      · simp [cacheInsert, cacheLookup, h, ih]

/-- Unfolding of `cachedCall` on a cacheable method name. -/
theorem cachedCall_cacheable_eq (hw conn cache name args kwargs)
    (h : cacheableMethods.contains name = true) :
    cachedCall hw conn cache name args kwargs =
      match cacheLookup cache (makeCacheKey conn name) with
      | some stored =>
          if stored = makeParamValue args kwargs then
            { invoked := false, ret := PV.atom PVAtom.none, cache := cache }
          else
            { invoked := true, ret := hw name args kwargs,
              cache := cacheInsert cache (makeCacheKey conn name)
                         (makeParamValue args kwargs) }
      | Option.none =>
          { invoked := true, ret := hw name args kwargs,
            cache := cacheInsert cache (makeCacheKey conn name)
                       (makeParamValue args kwargs) } := by
  unfold cachedCall
  rw [if_pos h]

/-- After any call of a cacheable method, the cache maps the method key
to that call's parameter value. -/
theorem cachedCall_records (hw conn cache name args kwargs)
    (h : cacheableMethods.contains name = true) :
    cacheLookup (cachedCall hw conn cache name args kwargs).cache
        (makeCacheKey conn name) = some (makeParamValue args kwargs) := by
  rw [cachedCall_cacheable_eq hw conn cache name args kwargs h]
  cases hl : cacheLookup cache (makeCacheKey conn name) with
  | none => simpa using cacheLookup_insert cache _ _
  | some stored =>
      by_cases he : stored = makeParamValue args kwargs
      · dsimp only
        rw [if_pos he]
        exact he ▸ hl
      · dsimp only
        rw [if_neg he]
        simpa using cacheLookup_insert cache _ _

/-- C4 (amended): for a cacheable method, a second call whose argument
tuples have equal hashable representations (`_make_param_value`) skips
the hardware and returns `None`; a call whose hashable representation
differs invokes the hardware and records the new value.  (Equality of
the raw Python argument values is only sufficient, not necessary: a
list argument and the equal tuple argument share one hashable
representation.) -/
theorem cached_method_skip_or_invoke
    (hw : String → List PV → List (String × PV) → PV) (conn : ConnInfo)
    (cache : Cache) (name : String) (args args2 : List PV)
    (kwargs kwargs2 : List (String × PV))
    (h : cacheableMethods.contains name = true) :
    ((makeParamValue args2 kwargs2 = makeParamValue args kwargs →
      (cachedCall hw conn (cachedCall hw conn cache name args kwargs).cache
          name args2 kwargs2).invoked = false ∧
      (cachedCall hw conn (cachedCall hw conn cache name args kwargs).cache
          name args2 kwargs2).ret = PV.atom PVAtom.none) ∧
     (makeParamValue args2 kwargs2 ≠ makeParamValue args kwargs →
      (cachedCall hw conn (cachedCall hw conn cache name args kwargs).cache
          name args2 kwargs2).invoked = true ∧
      cacheLookup (cachedCall hw conn (cachedCall hw conn cache name args kwargs).cache
          name args2 kwargs2).cache (makeCacheKey conn name) =
        some (makeParamValue args2 kwargs2))) := by
  have h1 := cachedCall_records hw conn cache name args kwargs h
  constructor
  · intro he
    rw [cachedCall_cacheable_eq hw conn
          (cachedCall hw conn cache name args kwargs).cache name args2 kwargs2 h, h1]
    dsimp only
    rw [if_pos he.symm]
    exact ⟨rfl, rfl⟩
  · intro hne
    refine ⟨?_, cachedCall_records hw conn _ name args2 kwargs2 h⟩
    rw [cachedCall_cacheable_eq hw conn
          (cachedCall hw conn cache name args kwargs).cache name args2 kwargs2 h, h1]
    dsimp only
    rw [if_neg (fun hx => hne hx.symm)]

/-- Witness for the amended C4 theorem: method `setRate`, first call with
argument `1`, second call with argument `2`. -/
theorem cached_method_skip_or_invoke_witness :
    cacheableMethods.contains ("setRate") = true ∧
    ((makeParamValue [PV.atom (PVAtom.num 2)] [] =
        makeParamValue [PV.atom (PVAtom.num 1)] [] →
      (cachedCall (fun _ _ _ => PV.atom PVAtom.none) ⟨false, 1⟩
          (cachedCall (fun _ _ _ => PV.atom PVAtom.none) ⟨false, 1⟩ []
            ("setRate") [PV.atom (PVAtom.num 1)] []).cache
          ("setRate") [PV.atom (PVAtom.num 2)] []).invoked = false ∧
      (cachedCall (fun _ _ _ => PV.atom PVAtom.none) ⟨false, 1⟩
          (cachedCall (fun _ _ _ => PV.atom PVAtom.none) ⟨false, 1⟩ []
            ("setRate") [PV.atom (PVAtom.num 1)] []).cache
          ("setRate") [PV.atom (PVAtom.num 2)] []).ret = PV.atom PVAtom.none) ∧
     (makeParamValue [PV.atom (PVAtom.num 2)] [] ≠
        makeParamValue [PV.atom (PVAtom.num 1)] [] →
      (cachedCall (fun _ _ _ => PV.atom PVAtom.none) ⟨false, 1⟩
          (cachedCall (fun _ _ _ => PV.atom PVAtom.none) ⟨false, 1⟩ []
            ("setRate") [PV.atom (PVAtom.num 1)] []).cache
          ("setRate") [PV.atom (PVAtom.num 2)] []).invoked = true ∧
      cacheLookup (cachedCall (fun _ _ _ => PV.atom PVAtom.none) ⟨false, 1⟩
          (cachedCall (fun _ _ _ => PV.atom PVAtom.none) ⟨false, 1⟩ []
            ("setRate") [PV.atom (PVAtom.num 1)] []).cache
          ("setRate") [PV.atom (PVAtom.num 2)] []).cache
          (makeCacheKey ⟨false, 1⟩ ("setRate")) =
        some (makeParamValue [PV.atom (PVAtom.num 2)] []))) :=
  ⟨by decide,
   cached_method_skip_or_invoke (fun _ _ _ => PV.atom PVAtom.none) ⟨false, 1⟩ []
     ("setRate") [PV.atom (PVAtom.num 1)] [PV.atom (PVAtom.num 2)] [] [] (by decide)⟩

/-- C4 counterexample: `setVolume([1,2])` followed by `setVolume((1,2))`.
The two argument values differ as Python values (a list is never equal
to a tuple), yet the second call does not invoke the hardware, because
`make_hashable` converts the list to the same tuple. -/
theorem cached_method_list_tuple_counterexample :
    ([PV.list [PVAtom.num 1, PVAtom.num 2]] : List PV) ≠
      [PV.tuple [PVAtom.num 1, PVAtom.num 2]] ∧
    (cachedCall (fun _ _ _ => PV.atom PVAtom.none) ⟨false, 1⟩
        (cachedCall (fun _ _ _ => PV.atom PVAtom.none) ⟨false, 1⟩ []
          ("setVolume") [PV.list [PVAtom.num 1, PVAtom.num 2]] []).cache
        ("setVolume") [PV.tuple [PVAtom.num 1, PVAtom.num 2]] []).invoked = false := by
  constructor
  · decide
  · decide

/-- C8: after `reset_cache`, the next call of any cacheable method
invokes the underlying hardware method, whatever was cached before. -/
theorem reset_cache_forces_hardware_call
    (hw : String → List PV → List (String × PV) → PV) (conn : ConnInfo)
    (cache : Cache) (name : String) (args : List PV)
    (kwargs : List (String × PV))
    (h : cacheableMethods.contains name = true) :
    (cachedCall hw conn (resetCache cache) name args kwargs).invoked = true := by
  unfold cachedCall resetCache
  rw [if_pos h]
  rfl

/-- Witness for C8: `setUnits` invoked after a reset that cleared a cache
already holding a `setUnits` entry with the same argument. -/
theorem reset_cache_forces_hardware_call_witness :
    cacheableMethods.contains ("setUnits") = true ∧
    (cachedCall (fun _ _ _ => PV.atom PVAtom.none) ⟨false, 1⟩
        (resetCache
          (cachedCall (fun _ _ _ => PV.atom PVAtom.none) ⟨false, 1⟩ []
            ("setUnits") [PV.atom (PVAtom.str ("mL/min"))] []).cache)
        ("setUnits") [PV.atom (PVAtom.str ("mL/min"))] []).invoked = true :=
  ⟨by decide,
   reset_cache_forces_hardware_call (fun _ _ _ => PV.atom PVAtom.none) ⟨false, 1⟩
     (cachedCall (fun _ _ _ => PV.atom PVAtom.none) ⟨false, 1⟩ []
       ("setUnits") [PV.atom (PVAtom.str ("mL/min"))] []).cache
     ("setUnits") [PV.atom (PVAtom.str ("mL/min"))] [] (by decide)⟩

/-! ## Step programs and their JSON persistence
(`MyChemyxGUI.save_program` / `load_program`)

A step is the dictionary `{'function': function, 'params': params}`
built by `add_step`, whose parameter values come from spin-box widgets
(integers or floats); string values are also representable.
`save_program` writes the step list with `json.dump(self.steps, f,
indent=2)` and `load_program` reads it back with `json.load(f)`.  The
text layer of the `json` module is faithful on the JSON trees produced
here (finite floats round-trip exactly through their shortest `repr`),
so serialisation and parsing are modelled at the level of JSON trees:
`stepsToJson` is the tree `json.dump` writes, and `jsonToSteps`
reconstructs the Python value `json.load` returns, failing on any tree
that is not the image of a step list. -/

/-- A parameter value of a step: a Python int or float (the data model
maps parameter names to numeric values; `add_step` reads them from
`QSpinBox` / `QDoubleSpinBox` widgets).  JSON keeps the int/float
distinction (`1` versus `1.0`). -/
inductive PyParam where
  | pint (n : ℤ)
  | pfloat (q : ℚ)
deriving DecidableEq

/-- One program step: `{'function': ..., 'params': {...}}`.  The params
dictionary is an ordered association list (Python dictionaries preserve
insertion order, and `json.dump` / `json.load` preserve it too). -/
structure Step where
  function : String
  params : List (String × PyParam)
deriving DecidableEq

/-- JSON trees as the `json` module produces and parses them. -/
inductive Json where
  | null
  | bool (b : Bool)
  | int (n : ℤ)
  | float (q : ℚ)
  | str (s : String)
  | arr (l : List Json)
  | obj (l : List (String × Json))

/-- Serialisation of one parameter value. -/
def paramToJson : PyParam → Json
  | PyParam.pint n => Json.int n
  | PyParam.pfloat q => Json.float q

/-- Serialisation of one step dictionary. -/
def stepToJson (s : Step) : Json :=
  Json.obj [(("function"), Json.str s.function),
            (("params"), Json.obj (s.params.map (fun p => (p.1, paramToJson p.2))))]

/-- `json.dump(self.steps, f, indent=2)`: the JSON array written by
`save_program`. -/
def stepsToJson (steps : List Step) : Json :=
  Json.arr (steps.map stepToJson)

/-- Parsing of one parameter value. -/
def jsonToParam : Json → Option PyParam
  | Json.int n => some (PyParam.pint n)
  | Json.float q => some (PyParam.pfloat q)
  | _ => Option.none

/-- Parsing of a params object back into an ordered association list. -/
def jsonToParams : List (String × Json) → Option (List (String × PyParam))
  | [] => some []
  | p :: rest =>
      match jsonToParam p.2, jsonToParams rest with
      | some v, some vs => some ((p.1, v) :: vs)
      | _, _ => Option.none

/-- Parsing of one step object. -/
def jsonToStep : Json → Option Step
  | Json.obj [(k1, Json.str f), (k2, Json.obj ps)] =>
      if k1 = ("function") ∧ k2 = ("params") then
        match jsonToParams ps with
        | some params => some { function := f, params := params }
        | Option.none => Option.none
      else Option.none
  | _ => Option.none

/-- Parsing of a step-list array. -/
def jsonToStepList : List Json → Option (List Step)
  | [] => some []
  | j :: rest =>
      match jsonToStep j, jsonToStepList rest with
      | some s, some ss => some (s :: ss)
      | _, _ => Option.none

/-- `json.load(f)` in `load_program`, specialised to program files: the
step list reconstructed from the JSON tree. -/
def jsonToSteps : Json → Option (List Step)
  | Json.arr l => jsonToStepList l
  | _ => Option.none

theorem jsonToParams_roundTrip (ps : List (String × PyParam)) :
    jsonToParams (ps.map (fun p => (p.1, paramToJson p.2))) = some ps := by
  induction ps with
  | nil => rfl
  | cons p rest ih =>
      obtain ⟨k, v⟩ := p
      simp only [List.map_cons, jsonToParams, ih]
      cases v <;> rfl

theorem jsonToStep_roundTrip (s : Step) :
    jsonToStep (stepToJson s) = some s := by
  simp [stepToJson, jsonToStep, jsonToParams_roundTrip]

/-- C9: saving a step program and loading the saved file yields the
identical ordered step list. -/
theorem save_load_roundTrip (steps : List Step) :
    jsonToSteps (stepsToJson steps) = some steps := by
  rw [stepsToJson]
  show jsonToStepList (steps.map stepToJson) = some steps
  induction steps with
  | nil => rfl
  | cons s rest ih =>
      simp [jsonToStepList, jsonToStep_roundTrip, ih]

/-! ## The step interpreter (`StepExecutor.execute_steps` /
`execute_single_step`)

The interpreter is modelled as a fuel-indexed iteration of the Python
`while` loop.  The Boolean result of `runLoop` is `true` when the loop
exited (by the length test, the stop flag, or a failing step) and
`false` when the fuel ran out before the loop exited; the `finally`
block of `execute_steps` emits the `execution_finished` notification
exactly when the function exits, so `executeSteps` appends the
`finished` event only on exit.  The pause flag is never set in the
runs modelled here (`pause_event` starts cleared), and the hardware
calls inside steps cannot themselves raise in the model, matching the
fact that `execute_single_step` catches every exception a step raises.
The stop flag is modelled by an optional threshold `stopAt`: the
`stop_event` check at the top of iteration number `i` (counting from
zero) reads true exactly when `stopAt = some k` with `k ≤ i`, which
captures a `stop()` call landing between two loop iterations and the
flag staying set afterwards. -/

/-- A notification emitted to the UI thread: `step_changed.emit(i)`,
`error_occurred.emit(msg)`, or `execution_finished.emit()`. -/
inductive Event where
  | stepChanged (i : ℕ)
  | errorOccurred (msg : String)
  | finished
deriving DecidableEq

/-- A loop-stack frame pushed by `start_loop`:
`{'start_index': ..., 'iterations': ..., 'current_iteration': ...}`. -/
structure Frame where
  startIndex : ℕ
  iterations : ℤ
  currentIteration : ℤ
deriving DecidableEq

/-- The mutable state of a run of `execute_steps`: `self.current_step`,
`self.loop_stack` (head of the list is the top of the Python stack,
i.e. `loop_stack[-1]`), the notifications emitted so far, the number of
loop iterations started (for the stop-flag model), and the step failure
recorded by the `except` branch of `execute_single_step`, if any. -/
structure ExecState where
  currentStep : ℕ
  loopStack : List Frame
  events : List Event
  iters : ℕ
  failed : Option (ℕ × String)
deriving DecidableEq

/-- `params.get(k, d)` on the step's parameter dictionary. -/
def getParam (params : List (String × PyParam)) (k : String) (d : PyParam) : PyParam :=
  match params.find? (fun p => p.1 == k) with
  | some p => p.2
  | Option.none => d

/-- Python `float()` on a numeric parameter value. -/
def pyFloat : PyParam → ℚ
  | PyParam.pint n => (n : ℚ)
  | PyParam.pfloat q => q

/-- Python `int()` on a numeric parameter value (truncation toward
zero on floats). -/
def pyInt : PyParam → ℤ
  | PyParam.pint n => n
  | PyParam.pfloat q => if q < 0 then ⌈q⌉ else ⌊q⌋

/-- The error notification text of `execute_single_step`:
`f"Step {self.current_step + 1}: {str(e)}"`. -/
def stepErrorMessage (i : ℕ) (msg : String) : String :=
  ("Step ") ++ toString (i + 1) ++ (": ") ++ msg

/-- The `except` branch of `execute_single_step`: emit the error
notification and record the failure. -/
def stepFail (st : ExecState) (e : PyError) : ExecState :=
  ⟨st.currentStep, st.loopStack,
   st.events ++ [Event.errorOccurred (stepErrorMessage st.currentStep (pyErrorMsg e))],
   st.iters, some (st.currentStep, pyErrorMsg e)⟩

/-- `StepExecutor.execute_single_step(step)`: dispatch on
`step['function']`, returning the updated state and the Boolean
success result.  Steps with an unknown function name fall through all
branches and return `True`. -/
def executeSingleStep (cfg : Config) (st : ExecState) (step : Step) :
    ExecState × Bool :=
  if step.function = ("pump_volume") then
    let volume := pyFloat (getParam step.params ("volume") (PyParam.pint 0))
    let rate := pyFloat (getParam step.params ("rate") (PyParam.pint 1))
    match (pumpVolume cfg volume rate).2 with
    | Except.ok _ => (st, true)
    | Except.error e => (stepFail st e, false)
  else if step.function = ("pump_time") then
    let duration := pyFloat (getParam step.params ("time") (PyParam.pint 1))
    let rate := pyFloat (getParam step.params ("rate") (PyParam.pint 1))
    match (pumpTime cfg duration rate).2 with
    | Except.ok _ => (st, true)
    | Except.error e => (stepFail st e, false)
  else if step.function = ("wait") then
    -- `self._wait(duration)` is a sleep: no state change, no event
    let _duration := pyFloat (getParam step.params ("time") (PyParam.pint 1))
    (st, true)
  else if step.function = ("start_loop") then
    let iterations := pyInt (getParam step.params ("iterations") (PyParam.pint 1))
    (⟨st.currentStep, ⟨st.currentStep, iterations, 0⟩ :: st.loopStack,
      st.events, st.iters, st.failed⟩, true)
  else if step.function = ("end_loop") then
    match st.loopStack with
    | [] => (st, true)
    | f :: rest =>
        let f2 : Frame := ⟨f.startIndex, f.iterations, f.currentIteration + 1⟩
        if f2.currentIteration < f2.iterations then
          (⟨f2.startIndex, f2 :: rest, st.events, st.iters, st.failed⟩, true)
        else
          (⟨st.currentStep, rest, st.events, st.iters, st.failed⟩, true)
  else (st, true)

/-- The `stop_event.is_set()` test at the top of iteration `iters`. -/
def stopFlag : Option ℕ → ℕ → Bool
  | Option.none, _ => false
  | some k, iters => decide (k ≤ iters)

/-- `self.step_changed.emit(self.current_step)` at the top of a loop
iteration (also counting the iteration for the stop-flag model). -/
def stepEmit (st : ExecState) : ExecState :=
  ⟨st.currentStep, st.loopStack,
   st.events ++ [Event.stepChanged st.currentStep], st.iters + 1, st.failed⟩

/-- `self.current_step += 1` at the bottom of a loop iteration. -/
def advance (st : ExecState) : ExecState :=
  ⟨st.currentStep + 1, st.loopStack, st.events, st.iters, st.failed⟩

/-- The `while` loop of `execute_steps`:
```
while self.current_step < len(self.steps) and not self.stop_event.is_set():
    step = self.steps[self.current_step]
    self.step_changed.emit(self.current_step)
    if not self.execute_single_step(step):
        break
    self.current_step += 1
```
The Boolean result is `true` when the loop exited within the given
fuel. -/
def runLoop (cfg : Config) (steps : List Step) (stopAt : Option ℕ) :
    ℕ → ExecState → ExecState × Bool
  | 0, st => (st, false)
  | fuel + 1, st =>
    if h1 : st.currentStep < steps.length then
      if stopFlag stopAt st.iters then (st, true)
      else
        let r := executeSingleStep cfg (stepEmit st) (steps.get ⟨st.currentStep, h1⟩)
        if r.2 then runLoop cfg steps stopAt fuel (advance r.1)
        else (r.1, true)
    else (st, true)

/-- The state at the top of `execute_steps` (after
`self.current_step = 0`, with a cleared loop stack and no emitted
events). -/
def initialState : ExecState := ⟨0, [], [], 0, Option.none⟩

/-- `StepExecutor.execute_steps()`: run the loop from the initial state;
on exit the `finally` block emits the `finished` notification. -/
def executeSteps (cfg : Config) (steps : List Step) (stopAt : Option ℕ)
    (fuel : ℕ) : ExecState × Bool :=
  let r := runLoop cfg steps stopAt fuel initialState
  if r.2 then
    (⟨r.1.currentStep, r.1.loopStack, r.1.events ++ [Event.finished],
      r.1.iters, r.1.failed⟩, true)
  else r

/-- Number of occurrences of one event in a notification list. -/
def countEv (x : Event) : List Event → ℕ
  | [] => 0
  | e :: rest => (if e = x then 1 else 0) + countEv x rest

/-- Number of step-changed notifications in a notification list. -/
def countSC : List Event → ℕ
  | [] => 0
  | e :: rest =>
      (match e with
       | Event.stepChanged _ => 1
       | _ => 0) + countSC rest

theorem pumpVolume_snd (cfg : Config) (v r : ℚ) :
    (pumpVolume cfg v r).2 = Except.error (PyError.nameError ("actual_volume")) := rfl

theorem pumpTime_snd (cfg : Config) (d r : ℚ) :
    (pumpTime cfg d r).2 = Except.error (PyError.nameError ("actual_volume")) := rfl


theorem stepEmit_currentStep (st : ExecState) :
    (stepEmit st).currentStep = st.currentStep := rfl

theorem stepEmit_events (st : ExecState) :
    (stepEmit st).events = st.events ++ [Event.stepChanged st.currentStep] := rfl

theorem stepEmit_iters (st : ExecState) : (stepEmit st).iters = st.iters + 1 := rfl

theorem stepEmit_failed (st : ExecState) : (stepEmit st).failed = st.failed := rfl

theorem advance_events (st : ExecState) : (advance st).events = st.events := rfl

theorem advance_iters (st : ExecState) : (advance st).iters = st.iters := rfl

theorem advance_failed (st : ExecState) : (advance st).failed = st.failed := rfl

theorem runLoop_zero (cfg : Config) (steps : List Step) (sa : Option ℕ)
    (st : ExecState) : runLoop cfg steps sa 0 st = (st, false) := rfl

theorem runLoop_succ_eq (cfg : Config) (steps : List Step) (sa : Option ℕ)
    (fuel : ℕ) (st : ExecState) :
    runLoop cfg steps sa (fuel + 1) st =
      if h1 : st.currentStep < steps.length then
        if stopFlag sa st.iters then (st, true)
        else
          let r := executeSingleStep cfg (stepEmit st) (steps.get ⟨st.currentStep, h1⟩)
          if r.2 then runLoop cfg steps sa fuel (advance r.1)
          else (r.1, true)
      else (st, true) := rfl

theorem runLoop_succ_done (cfg : Config) (steps : List Step) (sa : Option ℕ)
    (fuel : ℕ) (st : ExecState) (hlen : ¬ st.currentStep < steps.length) :
    runLoop cfg steps sa (fuel + 1) st = (st, true) := by
  rw [runLoop_succ_eq, dif_neg hlen]

theorem runLoop_succ_stop (cfg : Config) (steps : List Step) (sa : Option ℕ)
    (fuel : ℕ) (st : ExecState) (hlen : st.currentStep < steps.length)
    (hsf : stopFlag sa st.iters = true) :
    runLoop cfg steps sa (fuel + 1) st = (st, true) := by
  rw [runLoop_succ_eq, dif_pos hlen, if_pos hsf]

theorem runLoop_succ_ok (cfg : Config) (steps : List Step) (sa : Option ℕ)
    (fuel : ℕ) (st : ExecState) (hlen : st.currentStep < steps.length)
    (hsf : stopFlag sa st.iters = false)
    (hok : (executeSingleStep cfg (stepEmit st) (steps.get ⟨st.currentStep, hlen⟩)).2 = true) :
    runLoop cfg steps sa (fuel + 1) st =
      runLoop cfg steps sa fuel
        (advance (executeSingleStep cfg (stepEmit st)
          (steps.get ⟨st.currentStep, hlen⟩)).1) := by
  rw [runLoop_succ_eq, dif_pos hlen, if_neg (by simp [hsf])]
  dsimp only
  rw [hok, if_pos rfl]

theorem runLoop_succ_fail (cfg : Config) (steps : List Step) (sa : Option ℕ)
    (fuel : ℕ) (st : ExecState) (hlen : st.currentStep < steps.length)
    (hsf : stopFlag sa st.iters = false)
    (hok : (executeSingleStep cfg (stepEmit st) (steps.get ⟨st.currentStep, hlen⟩)).2 = false) :
    runLoop cfg steps sa (fuel + 1) st =
      ((executeSingleStep cfg (stepEmit st) (steps.get ⟨st.currentStep, hlen⟩)).1, true) := by
  rw [runLoop_succ_eq, dif_pos hlen, if_neg (by simp [hsf])]
  dsimp only
  rw [hok]
  simp

theorem executeSteps_eq (cfg : Config) (steps : List Step) (sa : Option ℕ)
    (fuel : ℕ) :
    executeSteps cfg steps sa fuel =
      if (runLoop cfg steps sa fuel initialState).2 then
        (⟨(runLoop cfg steps sa fuel initialState).1.currentStep,
          (runLoop cfg steps sa fuel initialState).1.loopStack,
          (runLoop cfg steps sa fuel initialState).1.events ++ [Event.finished],
          (runLoop cfg steps sa fuel initialState).1.iters,
          (runLoop cfg steps sa fuel initialState).1.failed⟩, true)
      else runLoop cfg steps sa fuel initialState := rfl

/-- Case analysis of one step execution: either the step succeeds and
emits nothing, or it fails, emits exactly the formatted error
notification, and records the failure; in both cases the iteration
counter is untouched. -/
theorem executeSingleStep_cases (cfg : Config) (st : ExecState) (step : Step) :
    ((executeSingleStep cfg st step).2 = true ∧
     (executeSingleStep cfg st step).1.events = st.events ∧
     (executeSingleStep cfg st step).1.failed = st.failed ∧
     (executeSingleStep cfg st step).1.iters = st.iters) ∨
    ((executeSingleStep cfg st step).2 = false ∧
     ∃ m, (executeSingleStep cfg st step).1.events =
         st.events ++ [Event.errorOccurred (stepErrorMessage st.currentStep m)] ∧
       (executeSingleStep cfg st step).1.failed = some (st.currentStep, m) ∧
       (executeSingleStep cfg st step).1.iters = st.iters) := by
  unfold executeSingleStep
  split_ifs with h1 h2 h3 h4 h5
  · right
    refine ⟨?_, pyErrorMsg (PyError.nameError ("actual_volume")), ?_, ?_, ?_⟩ <;>
      simp [pumpVolume_snd, stepFail]
  · right
    refine ⟨?_, pyErrorMsg (PyError.nameError ("actual_volume")), ?_, ?_, ?_⟩ <;>
      simp [pumpTime_snd, stepFail]
  · left
    exact ⟨rfl, rfl, rfl, rfl⟩
  · left
    exact ⟨rfl, rfl, rfl, rfl⟩
  · cases hstack : st.loopStack with
    | nil => left; exact ⟨rfl, rfl, rfl, rfl⟩
    | cons f rest =>
        by_cases hc : ((⟨f.startIndex, f.iterations, f.currentIteration + 1⟩ : Frame)).currentIteration <
            ((⟨f.startIndex, f.iterations, f.currentIteration + 1⟩ : Frame)).iterations
        · left
          dsimp only
          rw [if_pos hc]
          exact ⟨rfl, rfl, rfl, rfl⟩
        · left
          dsimp only
          rw [if_neg hc]
          exact ⟨rfl, rfl, rfl, rfl⟩
  · left
    exact ⟨rfl, rfl, rfl, rfl⟩

theorem countEv_append (x : Event) (a b : List Event) :
    countEv x (a ++ b) = countEv x a + countEv x b := by
  induction a with
  | nil => simp [countEv]
  | cons e rest ih => simp [countEv, ih]; omega

theorem countEv_not_mem (x : Event) (l : List Event) (h : x ∉ l) :
    countEv x l = 0 := by
  induction l with
  | nil => rfl
  | cons e rest ih =>
      have hne : ¬ e = x := fun he => h (he ▸ List.mem_cons_self e rest)
      simp only [countEv, if_neg hne, Nat.zero_add]
      exact ih (fun hm => h (List.mem_cons_of_mem e hm))

theorem countSC_append (a b : List Event) :
    countSC (a ++ b) = countSC a + countSC b := by
  induction a with
  | nil => simp [countSC]
  | cons e rest ih => simp [countSC, ih]; omega

theorem getLast?_append_singleton (l : List Event) (a : Event) :
    (l ++ [a]).getLast? = some a := by
  induction l with
  | nil => rfl
  | cons e rest ih =>
      rw [List.cons_append, List.getLast?_cons, ih]
      rfl

/-- The loop body never emits the finished notification. -/
theorem runLoop_not_finished (cfg : Config) (steps : List Step) (sa : Option ℕ) :
    ∀ (fuel : ℕ) (st : ExecState), Event.finished ∉ st.events →
      Event.finished ∉ (runLoop cfg steps sa fuel st).1.events := by
  intro fuel
  induction fuel with
  | zero => intro st h; exact h
  | succ f ih =>
      intro st h
      by_cases hlen : st.currentStep < steps.length
      · by_cases hsf : stopFlag sa st.iters
        · rw [runLoop_succ_stop cfg steps sa f st hlen hsf]; exact h
        · have hsf2 : stopFlag sa st.iters = false := by simpa using hsf
          rcases executeSingleStep_cases cfg (stepEmit st)
              (steps.get ⟨st.currentStep, hlen⟩) with
            ⟨hok, hev, _, _⟩ | ⟨hok, m, hev, _, _⟩
          · rw [runLoop_succ_ok cfg steps sa f st hlen hsf2 hok]
            apply ih
            rw [advance_events, hev, stepEmit_events]
            simp [h]
          · rw [runLoop_succ_fail cfg steps sa f st hlen hsf2 hok]
            dsimp only
            rw [hev, stepEmit_events]
            simp [h]
      · rw [runLoop_succ_done cfg steps sa f st hlen]; exact h

/-- When a run records a failure, the notifications of the loop end with
exactly the formatted error of that failure. -/
theorem runLoop_failed_tail (cfg : Config) (steps : List Step) (sa : Option ℕ) :
    ∀ (fuel : ℕ) (st : ExecState), st.failed = Option.none →
      ∀ i m, (runLoop cfg steps sa fuel st).1.failed = some (i, m) →
        ∃ p, (runLoop cfg steps sa fuel st).1.events =
          p ++ [Event.errorOccurred (stepErrorMessage i m)] := by
  intro fuel
  induction fuel with
  | zero =>
      intro st h i m hf
      rw [runLoop_zero] at hf
      exact absurd (h ▸ hf) (by simp)
  | succ f ih =>
      intro st h i m hf
      by_cases hlen : st.currentStep < steps.length
      · by_cases hsf : stopFlag sa st.iters
        · rw [runLoop_succ_stop cfg steps sa f st hlen hsf] at hf
          exact absurd (h ▸ hf) (by simp)
        · have hsf2 : stopFlag sa st.iters = false := by simpa using hsf
          rcases executeSingleStep_cases cfg (stepEmit st)
              (steps.get ⟨st.currentStep, hlen⟩) with
            ⟨hok, hev, hfl, _⟩ | ⟨hok, m2, hev, hfl, _⟩
          · rw [runLoop_succ_ok cfg steps sa f st hlen hsf2 hok] at hf ⊢
            exact ih _ (by rw [advance_failed, hfl, stepEmit_failed]; exact h) i m hf
          · rw [runLoop_succ_fail cfg steps sa f st hlen hsf2 hok] at hf ⊢
            dsimp only at hf ⊢
            rw [hfl, stepEmit_currentStep] at hf
            obtain ⟨hi, hm⟩ : st.currentStep = i ∧ m2 = m := by
              have h2 := Option.some.inj hf
              exact ⟨congrArg Prod.fst h2, congrArg Prod.snd h2⟩
            rw [hev, stepEmit_events, stepEmit_currentStep, hi, hm]
            exact ⟨_, rfl⟩
      · rw [runLoop_succ_done cfg steps sa f st hlen] at hf
        exact absurd (h ▸ hf) (by simp)

/-- Each loop iteration emits exactly one step-changed notification. -/
theorem runLoop_countSC (cfg : Config) (steps : List Step) (sa : Option ℕ) :
    ∀ (fuel : ℕ) (st : ExecState),
      countSC (runLoop cfg steps sa fuel st).1.events + st.iters =
        countSC st.events + (runLoop cfg steps sa fuel st).1.iters := by
  intro fuel
  induction fuel with
  | zero => intro st; rfl
  | succ f ih =>
      intro st
      by_cases hlen : st.currentStep < steps.length
      · by_cases hsf : stopFlag sa st.iters
        · rw [runLoop_succ_stop cfg steps sa f st hlen hsf]
        · have hsf2 : stopFlag sa st.iters = false := by simpa using hsf
          rcases executeSingleStep_cases cfg (stepEmit st)
              (steps.get ⟨st.currentStep, hlen⟩) with
            ⟨hok, hev, _, hit⟩ | ⟨hok, m, hev, _, hit⟩
          · rw [runLoop_succ_ok cfg steps sa f st hlen hsf2 hok]
            have hih := ih (advance (executeSingleStep cfg (stepEmit st)
              (steps.get ⟨st.currentStep, hlen⟩)).1)
            rw [advance_events, advance_iters, hev, hit, stepEmit_events,
                stepEmit_iters, countSC_append] at hih
            simp only [countSC] at hih
            omega
          · rw [runLoop_succ_fail cfg steps sa f st hlen hsf2 hok]
            dsimp only
            rw [hev, hit, stepEmit_events, stepEmit_iters,
                countSC_append, countSC_append]
            simp only [countSC]
            omega
      · rw [runLoop_succ_done cfg steps sa f st hlen]

/-- With the stop flag set from check number `k` on, the iteration
counter never exceeds `max k` its starting value. -/
theorem runLoop_iters_le (cfg : Config) (steps : List Step) (k : ℕ) :
    ∀ (fuel : ℕ) (st : ExecState),
      (runLoop cfg steps (some k) fuel st).1.iters ≤ max k st.iters := by
  intro fuel
  induction fuel with
  | zero => intro st; exact le_max_right k st.iters
  | succ f ih =>
      intro st
      by_cases hlen : st.currentStep < steps.length
      · by_cases hsf : stopFlag (some k) st.iters
        · rw [runLoop_succ_stop cfg steps (some k) f st hlen hsf]
          exact le_max_right k st.iters
        · have hsf2 : stopFlag (some k) st.iters = false := by simpa using hsf
          have hklt : st.iters < k := by
            have := of_decide_eq_false hsf2
            omega
          rcases executeSingleStep_cases cfg (stepEmit st)
              (steps.get ⟨st.currentStep, hlen⟩) with
            ⟨hok, _, _, hit⟩ | ⟨hok, m, _, _, hit⟩
          · rw [runLoop_succ_ok cfg steps (some k) f st hlen hsf2 hok]
            have hih := ih (advance (executeSingleStep cfg (stepEmit st)
              (steps.get ⟨st.currentStep, hlen⟩)).1)
            rw [advance_iters, hit, stepEmit_iters] at hih
            have hmax : max k (st.iters + 1) = k := Nat.max_eq_left (by omega)
            rw [hmax] at hih
            exact le_trans hih (le_max_left k st.iters)
          · rw [runLoop_succ_fail cfg steps (some k) f st hlen hsf2 hok]
            dsimp only
            rw [hit, stepEmit_iters]
            exact le_trans (by omega) (le_max_left k st.iters)
      · rw [runLoop_succ_done cfg steps (some k) f st hlen]
        exact le_max_right k st.iters

/-- With the stop flag set from check number `k` on, the loop exits
within `k + 1` iterations of remaining fuel. -/
theorem runLoop_stop_completes (cfg : Config) (steps : List Step) (k : ℕ) :
    ∀ (fuel : ℕ) (st : ExecState), k ≤ st.iters + fuel →
      (runLoop cfg steps (some k) (fuel + 1) st).2 = true := by
  intro fuel
  induction fuel with
  | zero =>
      intro st h
      by_cases hlen : st.currentStep < steps.length
      · have hsf : stopFlag (some k) st.iters = true := by
          simp only [stopFlag, decide_eq_true_eq]
          omega
        rw [runLoop_succ_stop cfg steps (some k) 0 st hlen hsf]
      · rw [runLoop_succ_done cfg steps (some k) 0 st hlen]
  | succ f ih =>
      intro st h
      by_cases hlen : st.currentStep < steps.length
      · by_cases hsf : stopFlag (some k) st.iters
        · rw [runLoop_succ_stop cfg steps (some k) (f + 1) st hlen hsf]
        · have hsf2 : stopFlag (some k) st.iters = false := by simpa using hsf
          rcases executeSingleStep_cases cfg (stepEmit st)
              (steps.get ⟨st.currentStep, hlen⟩) with
            ⟨hok, _, _, hit⟩ | ⟨hok, m, _, _, hit⟩
          · rw [runLoop_succ_ok cfg steps (some k) (f + 1) st hlen hsf2 hok]
            exact ih _ (by rw [advance_iters, hit, stepEmit_iters]; omega)
          · rw [runLoop_succ_fail cfg steps (some k) (f + 1) st hlen hsf2 hok]
      · rw [runLoop_succ_done cfg steps (some k) (f + 1) st hlen]

/-- On every completed run, the finished notification is emitted exactly
once, as the last notification. -/
theorem executeSteps_finished_spec (cfg : Config) (steps : List Step)
    (sa : Option ℕ) (fuel : ℕ) (h : (executeSteps cfg steps sa fuel).2 = true) :
    countEv Event.finished (executeSteps cfg steps sa fuel).1.events = 1 ∧
    (executeSteps cfg steps sa fuel).1.events.getLast? = some Event.finished := by
  have hr : (runLoop cfg steps sa fuel initialState).2 = true := by
    by_contra hc
    rw [executeSteps_eq, if_neg hc] at h
    exact hc h
  rw [executeSteps_eq, if_pos hr]
  dsimp only
  have hnf : Event.finished ∉ (runLoop cfg steps sa fuel initialState).1.events :=
    runLoop_not_finished cfg steps sa fuel initialState (by simp [initialState])
  constructor
  · rw [countEv_append, countEv_not_mem _ _ hnf]
    simp [countEv]
  · exact getLast?_append_singleton _ _

/-- C6: on every completed run (successful, failed, or stopped) exactly
one finished notification is emitted, as the last notification; and
when an exception is raised while executing a step, the run emits the
error notification with the 1-based step number and the exception
message, and the loop stops advancing: the notifications end with that
error followed only by the finished notification. -/
theorem step_failure_reported_and_finished
    (cfg : Config) (steps : List Step) (sa : Option ℕ) (fuel : ℕ)
    (h : (executeSteps cfg steps sa fuel).2 = true) :
    (countEv Event.finished (executeSteps cfg steps sa fuel).1.events = 1 ∧
     (executeSteps cfg steps sa fuel).1.events.getLast? = some Event.finished) ∧
    (∀ i m, (executeSteps cfg steps sa fuel).1.failed = some (i, m) →
      ∃ p, (executeSteps cfg steps sa fuel).1.events =
        p ++ [Event.errorOccurred (stepErrorMessage i m), Event.finished]) := by
  refine ⟨executeSteps_finished_spec cfg steps sa fuel h, ?_⟩
  intro i m hf
  have hr : (runLoop cfg steps sa fuel initialState).2 = true := by
    by_contra hc
    rw [executeSteps_eq, if_neg hc] at h
    exact hc h
  rw [executeSteps_eq, if_pos hr] at hf ⊢
  dsimp only at hf ⊢
  obtain ⟨p, hp⟩ := runLoop_failed_tail cfg steps sa fuel initialState rfl i m hf
  refine ⟨p, ?_⟩
  rw [hp, List.append_assoc]
  rfl

/-- Witness for C6: a one-step program whose pump_volume step raises the
`actual_volume` `NameError`; the run completes, reports
`Step 1: name 'actual_volume' is not defined`, and emits one final
finished notification. -/
theorem step_failure_reported_and_finished_witness :
    (executeSteps ⟨1⟩ [⟨("pump_volume"),
        [(("volume"), PyParam.pint 1), (("rate"), PyParam.pint 2)]⟩]
      Option.none 1).2 = true ∧
    ((countEv Event.finished (executeSteps ⟨1⟩ [⟨("pump_volume"),
          [(("volume"), PyParam.pint 1), (("rate"), PyParam.pint 2)]⟩]
        Option.none 1).1.events = 1 ∧
      (executeSteps ⟨1⟩ [⟨("pump_volume"),
          [(("volume"), PyParam.pint 1), (("rate"), PyParam.pint 2)]⟩]
        Option.none 1).1.events.getLast? = some Event.finished) ∧
     (∀ i m, (executeSteps ⟨1⟩ [⟨("pump_volume"),
          [(("volume"), PyParam.pint 1), (("rate"), PyParam.pint 2)]⟩]
        Option.none 1).1.failed = some (i, m) →
       ∃ p, (executeSteps ⟨1⟩ [⟨("pump_volume"),
          [(("volume"), PyParam.pint 1), (("rate"), PyParam.pint 2)]⟩]
        Option.none 1).1.events =
         p ++ [Event.errorOccurred (stepErrorMessage i m), Event.finished])) :=
  ⟨by decide,
   step_failure_reported_and_finished ⟨1⟩ [⟨("pump_volume"),
       [(("volume"), PyParam.pint 1), (("rate"), PyParam.pint 2)]⟩]
     Option.none 1 (by decide)⟩

/-- C7: when the stop flag is observed set from loop check `k` on (a
`stop()` call that lands after `k` iterations have started), the run
exits within `k + 1` iterations, emits at most `k` step-changed
notifications (none after the step that was already executing), and
still emits exactly one finished notification, as the last one. -/
theorem stop_halts_advancement (cfg : Config) (steps : List Step) (k : ℕ) :
    (executeSteps cfg steps (some k) (k + 1)).2 = true ∧
    countSC (executeSteps cfg steps (some k) (k + 1)).1.events ≤ k ∧
    countEv Event.finished (executeSteps cfg steps (some k) (k + 1)).1.events = 1 ∧
    (executeSteps cfg steps (some k) (k + 1)).1.events.getLast? =
      some Event.finished := by
  have hcomp0 : (runLoop cfg steps (some k) (k + 1) initialState).2 = true :=
    runLoop_stop_completes cfg steps k k initialState (by simp [initialState])
  have hcomp : (executeSteps cfg steps (some k) (k + 1)).2 = true := by
    rw [executeSteps_eq, if_pos hcomp0]
  refine ⟨hcomp, ?_, (executeSteps_finished_spec cfg steps (some k) (k + 1) hcomp).1,
          (executeSteps_finished_spec cfg steps (some k) (k + 1) hcomp).2⟩
  rw [executeSteps_eq, if_pos hcomp0]
  dsimp only
  rw [countSC_append]
  have h1 := runLoop_countSC cfg steps (some k) (k + 1) initialState
  have h2 := runLoop_iters_le cfg steps k (k + 1) initialState
  rw [show initialState.iters = 0 from rfl,
      show countSC initialState.events = 0 from rfl] at h1
  rw [show initialState.iters = 0 from rfl, Nat.max_zero] at h2
  simp only [countSC]
  omega

/-! ## Loop programs

For the loop claims the executor is run on the program
`[start_loop{iterations=K}] ++ (n wait body steps) ++ [end_loop]`, and
on a nested variant.  A body step at index `j` (`1 ≤ j ≤ n`) is
executed once per `step_changed j` notification, so executions are
counted on the notification trace. -/

/-- A wait body step (`{'function': 'wait', 'params': {'time': 1.0}}`). -/
def waitStep : Step := ⟨("wait"), [(("time"), PyParam.pfloat 1)]⟩

/-- `{'function': 'start_loop', 'params': {'iterations': K}}`. -/
def startLoopStep (K : ℤ) : Step :=
  ⟨("start_loop"), [(("iterations"), PyParam.pint K)]⟩

/-- `{'function': 'end_loop', 'params': {}}`. -/
def endLoopStep : Step := ⟨("end_loop"), []⟩

/-- The program `start_loop{K}`, `n` wait body steps, `end_loop`. -/
def loopProgram (K : ℤ) (n : ℕ) : List Step :=
  startLoopStep K :: (List.replicate n waitStep ++ [endLoopStep])

theorem loopProgram_length (K : ℤ) (n : ℕ) :
    (loopProgram K n).length = n + 2 := by
  simp [loopProgram]

theorem loopProgram_get_wait (K : ℤ) (n i : ℕ) (h1 : 1 ≤ i) (h2 : i ≤ n)
    (h : i < (loopProgram K n).length) :
    (loopProgram K n).get ⟨i, h⟩ = waitStep := by
  obtain ⟨j, rfl⟩ : ∃ j, i = j + 1 := ⟨i - 1, by omega⟩
  have hj : j < n := by omega
  simp only [loopProgram, List.get_eq_getElem, List.getElem_cons_succ]
  rw [List.getElem_append_left (by simpa using hj)]
  simp

theorem loopProgram_get_end (K : ℤ) (n : ℕ)
    (h : n + 1 < (loopProgram K n).length) :
    (loopProgram K n).get ⟨n + 1, h⟩ = endLoopStep := by
  simp only [loopProgram, List.get_eq_getElem, List.getElem_cons_succ]
  rw [List.getElem_append_right (by simp)]
  simp

theorem exec_waitStep (cfg : Config) (st : ExecState) :
    executeSingleStep cfg st waitStep = (st, true) := rfl

theorem exec_startLoopStep (cfg : Config) (st : ExecState) (K : ℤ) :
    executeSingleStep cfg st (startLoopStep K) =
      (⟨st.currentStep, ⟨st.currentStep, K, 0⟩ :: st.loopStack,
        st.events, st.iters, st.failed⟩, true) := rfl

theorem exec_endLoopStep (cfg : Config) (c si : ℕ) (K cc : ℤ)
    (stk : List Frame) (ev : List Event) (it : ℕ) (fl : Option (ℕ × String)) :
    executeSingleStep cfg ⟨c, ⟨si, K, cc⟩ :: stk, ev, it, fl⟩ endLoopStep =
      if cc + 1 < K then
        ((⟨si, ⟨si, K, cc + 1⟩ :: stk, ev, it, fl⟩ : ExecState), true)
      else ((⟨c, stk, ev, it, fl⟩ : ExecState), true) := rfl

/-- Running through the `n` wait body steps from index `c` up to the
`end_loop` index `n + 1`, emitting one step-changed notification per
body step. -/
theorem runWaits (cfg : Config) (K : ℤ) (n : ℕ) :
    ∀ (m f c : ℕ) (stk : List Frame) (ev : List Event) (it : ℕ)
      (fl : Option (ℕ × String)), 1 ≤ c → c + m = n + 1 →
      runLoop cfg (loopProgram K n) Option.none (m + f) ⟨c, stk, ev, it, fl⟩ =
        runLoop cfg (loopProgram K n) Option.none f
          ⟨n + 1, stk, ev ++ (List.range' c m).map Event.stepChanged, it + m, fl⟩ := by
  intro m
  induction m with
  | zero =>
      intro f c stk ev it fl h1 h2
      obtain rfl : c = n + 1 := by omega
      simp
  | succ m ih =>
      intro f c stk ev it fl h1 h2
      have hc : c < (loopProgram K n).length := by rw [loopProgram_length]; omega
      have hget : (loopProgram K n).get ⟨c, hc⟩ = waitStep :=
        loopProgram_get_wait K n c h1 (by omega) hc
      have hok : (executeSingleStep cfg (stepEmit ⟨c, stk, ev, it, fl⟩)
          ((loopProgram K n).get ⟨c, hc⟩)).2 = true := by
        rw [hget, exec_waitStep]
      rw [show m + 1 + f = (m + f) + 1 from by omega,
          runLoop_succ_ok cfg (loopProgram K n) Option.none (m + f)
            ⟨c, stk, ev, it, fl⟩ hc rfl hok,
          hget, exec_waitStep]
      rw [show advance (stepEmit ⟨c, stk, ev, it, fl⟩) =
            ⟨c + 1, stk, ev ++ [Event.stepChanged c], it + 1, fl⟩ from rfl]
      rw [ih f (c + 1) stk (ev ++ [Event.stepChanged c]) (it + 1) fl
            (by omega) (by omega)]
      have hev2 : (ev ++ [Event.stepChanged c]) ++
          (List.range' (c + 1) m).map Event.stepChanged =
          ev ++ (List.range' c (m + 1)).map Event.stepChanged := by
        rw [List.append_assoc, List.range'_succ]
        rfl
      have hst : (⟨n + 1, stk, (ev ++ [Event.stepChanged c]) ++
            (List.range' (c + 1) m).map Event.stepChanged, it + 1 + m, fl⟩ :
            ExecState) =
          ⟨n + 1, stk, ev ++ (List.range' c (m + 1)).map Event.stepChanged,
            it + (m + 1), fl⟩ := by
        rw [hev2, show it + 1 + m = it + (m + 1) from by omega]
      rw [hst]

/-- One full pass of the loop body: `n` wait steps and the `end_loop`
step, which either rewinds with an incremented counter or pops the
frame and leaves the program. -/
theorem runCycle (cfg : Config) (K : ℤ) (n : ℕ) (f : ℕ) (cc : ℤ)
    (stk : List Frame) (ev : List Event) (it : ℕ) (fl : Option (ℕ × String)) :
    runLoop cfg (loopProgram K n) Option.none ((n + 1) + f)
        ⟨1, ⟨0, K, cc⟩ :: stk, ev, it, fl⟩ =
      if cc + 1 < K then
        runLoop cfg (loopProgram K n) Option.none f
          ⟨1, ⟨0, K, cc + 1⟩ :: stk,
           ev ++ (List.range' 1 (n + 1)).map Event.stepChanged, it + (n + 1), fl⟩
      else
        runLoop cfg (loopProgram K n) Option.none f
          ⟨n + 2, stk,
           ev ++ (List.range' 1 (n + 1)).map Event.stepChanged, it + (n + 1), fl⟩ := by
  rw [show (n + 1) + f = n + (f + 1) from by omega,
      runWaits cfg K n n (f + 1) 1 (⟨0, K, cc⟩ :: stk) ev it fl (le_refl 1)
        (by omega)]
  have hlen : n + 1 < (loopProgram K n).length := by rw [loopProgram_length]; omega
  have hget := loopProgram_get_end K n hlen
  have hok : (executeSingleStep cfg
      (stepEmit ⟨n + 1, ⟨0, K, cc⟩ :: stk,
        ev ++ (List.range' 1 n).map Event.stepChanged, it + n, fl⟩)
      ((loopProgram K n).get ⟨n + 1, hlen⟩)).2 = true := by
    rw [hget]
    rw [show stepEmit ⟨n + 1, ⟨0, K, cc⟩ :: stk,
          ev ++ (List.range' 1 n).map Event.stepChanged, it + n, fl⟩ =
        ⟨n + 1, ⟨0, K, cc⟩ :: stk,
         (ev ++ (List.range' 1 n).map Event.stepChanged) ++
           [Event.stepChanged (n + 1)], it + n + 1, fl⟩ from rfl]
    rw [exec_endLoopStep]
    split_ifs <;> rfl
  rw [runLoop_succ_ok cfg (loopProgram K n) Option.none f _ hlen rfl hok, hget]
  rw [show stepEmit ⟨n + 1, ⟨0, K, cc⟩ :: stk,
        ev ++ (List.range' 1 n).map Event.stepChanged, it + n, fl⟩ =
      ⟨n + 1, ⟨0, K, cc⟩ :: stk,
       (ev ++ (List.range' 1 n).map Event.stepChanged) ++
         [Event.stepChanged (n + 1)], it + n + 1, fl⟩ from rfl]
  rw [exec_endLoopStep]
  have hev : (ev ++ (List.range' 1 n).map Event.stepChanged) ++
      [Event.stepChanged (n + 1)] =
      ev ++ (List.range' 1 (n + 1)).map Event.stepChanged := by
    rw [List.append_assoc]
    congr 1
    rw [show (n + 1 : ℕ) = 1 + n from by omega, ← List.range'_append_1 1 n 1]
    simp
  by_cases hcc : cc + 1 < K
  · rw [if_pos hcc, if_pos hcc]
    dsimp only [advance]
    rw [hev]
    rfl
  · rw [if_neg hcc, if_neg hcc]
    dsimp only [advance]
    rw [hev]
    rfl

/-- The step-changed notifications of one pass over the loop body
(body indices `1..n` and the `end_loop` index `n + 1`). -/
def cycleEvents (n : ℕ) : List Event :=
  (List.range' 1 (n + 1)).map Event.stepChanged

/-- The notifications of `d` successive passes over the loop body. -/
def cyclesEvents (n : ℕ) : ℕ → List Event
  | 0 => []
  | d + 1 => cycleEvents n ++ cyclesEvents n d

/-- Running the whole loop from its first body index with `d` remaining
passes: the loop performs exactly `d` passes and exits the program. -/
theorem runLoopFull (cfg : Config) (K : ℤ) (n : ℕ) :
    ∀ (d : ℕ) (cc : ℤ) (stk : List Frame) (ev : List Event) (it : ℕ)
      (fl : Option (ℕ × String)), 1 ≤ d → 0 ≤ cc → cc + d = max K 1 →
      runLoop cfg (loopProgram K n) Option.none (d * (n + 1) + 1)
          ⟨1, ⟨0, K, cc⟩ :: stk, ev, it, fl⟩ =
        (⟨n + 2, stk, ev ++ cyclesEvents n d, it + d * (n + 1), fl⟩, true) := by
  intro d
  induction d with
  | zero => intro cc stk ev it fl h1 h0 hsum; omega
  | succ d ih =>
      intro cc stk ev it fl h1 h0 hsum
      by_cases hd : d = 0
      · subst hd
        rw [show (0 + 1) * (n + 1) + 1 = (n + 1) + 1 from by omega,
            runCycle cfg K n 1 cc stk ev it fl]
        have hnot : ¬ (cc + 1 < K) := by
          have hmax : (K : ℤ) ≤ max K 1 := le_max_left K 1
          omega
        rw [if_neg hnot,
            runLoop_succ_done cfg (loopProgram K n) Option.none 0 _
              (by simp [loopProgram_length])]
        have hst : (⟨n + 2, stk,
              ev ++ (List.range' 1 (n + 1)).map Event.stepChanged,
              it + (n + 1), fl⟩ : ExecState) =
            ⟨n + 2, stk, ev ++ cyclesEvents n (0 + 1),
              it + (0 + 1) * (n + 1), fl⟩ := by
          rw [show cyclesEvents n (0 + 1) =
                (List.range' 1 (n + 1)).map Event.stepChanged ++ [] from rfl,
              List.append_nil,
              show (0 + 1) * (n + 1) = n + 1 from by omega]
        rw [hst]
      · rw [show (d + 1) * (n + 1) + 1 = (n + 1) + (d * (n + 1) + 1) from by ring,
            runCycle cfg K n (d * (n + 1) + 1) cc stk ev it fl]
        have hlt : cc + 1 < K := by
          rcases max_choice K 1 with hm | hm <;> omega
        rw [if_pos hlt,
            ih (cc + 1) stk (ev ++ (List.range' 1 (n + 1)).map Event.stepChanged)
              (it + (n + 1)) fl (by omega) (by omega) (by omega)]
        have hev : (ev ++ (List.range' 1 (n + 1)).map Event.stepChanged) ++
            cyclesEvents n d = ev ++ cyclesEvents n (d + 1) := by
          rw [List.append_assoc]
          rfl
        have hit : it + (n + 1) + d * (n + 1) = it + (d + 1) * (n + 1) := by ring
        rw [hev, hit]

/-- Closed form of a full run of `loopProgram K n`: the start_loop step
executes once, the loop performs `max(K, 1)` passes over the body, the
run exits the program, and the finished notification closes the
trace. -/
theorem loopProgram_run (cfg : Config) (K : ℤ) (n : ℕ) :
    executeSteps cfg (loopProgram K n) Option.none
        ((max K 1).toNat * (n + 1) + 2) =
      (⟨n + 2, [],
        (Event.stepChanged 0 :: cyclesEvents n (max K 1).toNat) ++ [Event.finished],
        (max K 1).toNat * (n + 1) + 1, Option.none⟩, true) := by
  have hmx : (1 : ℤ) ≤ max K 1 := le_max_right K 1
  have hM1 : 1 ≤ (max K 1).toNat := by omega
  have hlen0 : initialState.currentStep < (loopProgram K n).length := by
    simp [initialState, loopProgram_length]
  have hok0 : (executeSingleStep cfg (stepEmit initialState)
      ((loopProgram K n).get ⟨initialState.currentStep, hlen0⟩)).2 = true := rfl
  have hrun : runLoop cfg (loopProgram K n) Option.none
      ((max K 1).toNat * (n + 1) + 2) initialState =
      (⟨n + 2, [], [Event.stepChanged 0] ++ cyclesEvents n (max K 1).toNat,
        1 + (max K 1).toNat * (n + 1), Option.none⟩, true) := by
    rw [show (max K 1).toNat * (n + 1) + 2 = ((max K 1).toNat * (n + 1) + 1) + 1
          from by omega,
        runLoop_succ_ok cfg (loopProgram K n) Option.none
          ((max K 1).toNat * (n + 1) + 1) initialState hlen0 rfl hok0]
    rw [show (loopProgram K n).get ⟨initialState.currentStep, hlen0⟩ =
          startLoopStep K from rfl]
    rw [show advance (executeSingleStep cfg (stepEmit initialState)
          (startLoopStep K)).1 =
        ⟨1, [⟨0, K, (0 : ℤ)⟩], [Event.stepChanged 0], 1, Option.none⟩ from rfl]
    rw [runLoopFull cfg K n (max K 1).toNat 0 [] [Event.stepChanged 0] 1
          Option.none hM1 (le_refl 0) (by omega)]
  rw [executeSteps_eq, hrun]
  rw [if_pos rfl]
  dsimp only
  rw [show (1 + (max K 1).toNat * (n + 1) : ℕ) =
        (max K 1).toNat * (n + 1) + 1 from by omega]
  rfl

theorem countEv_sc_range' :
    ∀ (len s j : ℕ),
      countEv (Event.stepChanged j) ((List.range' s len).map Event.stepChanged) =
        if s ≤ j ∧ j < s + len then 1 else 0 := by
  intro len
  induction len with
  | zero =>
      intro s j
      rw [if_neg (by omega)]
      rfl
  | succ len ih =>
      intro s j
      rw [List.range'_succ, List.map_cons]
      show (if Event.stepChanged s = Event.stepChanged j then 1 else 0) +
          countEv (Event.stepChanged j)
            ((List.range' (s + 1) len).map Event.stepChanged) = _
      rw [ih (s + 1) j]
      by_cases hj : s = j
      · subst hj
        rw [if_pos rfl, if_neg (by omega), if_pos (by omega)]
      · rw [if_neg (fun hx => hj (Event.stepChanged.inj hx))]
        split_ifs <;> omega

theorem countEv_cyclesEvents (n : ℕ) (x : Event) (d : ℕ) :
    countEv x (cyclesEvents n d) = d * countEv x (cycleEvents n) := by
  induction d with
  | zero => simp [cyclesEvents, countEv]
  | succ d ih =>
      show countEv x (cycleEvents n ++ cyclesEvents n d) = _
      rw [countEv_append, ih]
      ring

/-- Execution count of body step `j` in a full run of `loopProgram K n`:
exactly `max(K, 1)` times. -/
theorem loopProgram_body_count (cfg : Config) (K : ℤ) (n j : ℕ)
    (h1 : 1 ≤ j) (h2 : j ≤ n) :
    countEv (Event.stepChanged j)
      (executeSteps cfg (loopProgram K n) Option.none
        ((max K 1).toNat * (n + 1) + 2)).1.events = (max K 1).toNat := by
  rw [loopProgram_run cfg K n]
  dsimp only
  rw [List.cons_append]
  show (if Event.stepChanged 0 = Event.stepChanged j then 1 else 0) +
      countEv (Event.stepChanged j)
        (cyclesEvents n (max K 1).toNat ++ [Event.finished]) = (max K 1).toNat
  rw [if_neg (fun hx => by have := Event.stepChanged.inj hx; omega),
      countEv_append, countEv_cyclesEvents,
      show countEv (Event.stepChanged j) [Event.finished] = 0 from rfl,
      show cycleEvents n = (List.range' 1 (n + 1)).map Event.stepChanged from rfl,
      countEv_sc_range', if_pos (show 1 ≤ j ∧ j < 1 + (n + 1) by omega)]
  omega

/-- C3 (amended): for the top-level program
`start_loop{iterations=3}`, `n` wait body steps, `end_loop` — a loop
that is not nested inside another loop and whose body steps execute
successfully — every body step is executed exactly 3 times in the run,
for any body length `n`, including zero (vacuously). -/
theorem loop_body_executes_three_times (cfg : Config) (n j : ℕ)
    (h1 : 1 ≤ j) (h2 : j ≤ n) :
    countEv (Event.stepChanged j)
      (executeSteps cfg (loopProgram 3 n) Option.none
        (3 * (n + 1) + 2)).1.events = 3 := by
  have h := loopProgram_body_count cfg 3 n j h1 h2
  rw [show ((max (3 : ℤ) 1).toNat : ℕ) = 3 from by decide] at h
  exact h

/-- Witness for the amended C3 theorem: one body step, executed 3
times. -/
theorem loop_body_executes_three_times_witness :
    1 ≤ 1 ∧ 1 ≤ 1 ∧
    countEv (Event.stepChanged 1)
      (executeSteps ⟨1⟩ (loopProgram 3 1) Option.none
        (3 * (1 + 1) + 2)).1.events = 3 :=
  ⟨le_refl 1, le_refl 1,
   loop_body_executes_three_times ⟨1⟩ 1 1 (le_refl 1) (le_refl 1)⟩

/-- The nested program `start_loop{2}; start_loop{3}; wait; end_loop;
end_loop`: the inner loop (`iterations = 3`, body = the wait step at
index 2, matching end_loop at index 3) sits inside an outer 2-iteration
loop. -/
def nestedLoopProgram : List Step :=
  [startLoopStep 2, startLoopStep 3, waitStep, endLoopStep, endLoopStep]

/-- C3 counterexample: in `nestedLoopProgram` the program contains a
`start_loop` step with `iterations = 3` followed by one body step and
its matching `end_loop`, yet the enclosed body step (index 2) is
executed 6 times in the run, not 3, because the enclosing loop repeats
the inner loop. -/
theorem nested_loop_body_executes_six_times :
    countEv (Event.stepChanged 2)
      (executeSteps ⟨1⟩ nestedLoopProgram Option.none 32).1.events = 6 ∧
    ¬ countEv (Event.stepChanged 2)
      (executeSteps ⟨1⟩ nestedLoopProgram Option.none 32).1.events = 3 := by
  constructor <;> decide

/-- C10: for `start_loop` with a non-positive iterations value `K`, the
loop body still executes exactly once: `end_loop` first increments the
counter to 1 and only then compares it with `K`, so the pop branch is
taken on the first pass. -/
theorem nonpositive_iterations_body_executes_once (cfg : Config) (K : ℤ)
    (n j : ℕ) (hK : K ≤ 0) (h1 : 1 ≤ j) (h2 : j ≤ n) :
    countEv (Event.stepChanged j)
      (executeSteps cfg (loopProgram K n) Option.none (n + 3)).1.events = 1 := by
  have hmax : max K 1 = 1 := max_eq_right (by omega)
  have h := loopProgram_body_count cfg K n j h1 h2
  rw [hmax, show ((1 : ℤ).toNat : ℕ) = 1 from rfl,
      show (1 : ℕ) * (n + 1) + 2 = n + 3 from by omega] at h
  exact h

/-- Witness for C10: `iterations = 0`, one body step, executed once. -/
theorem nonpositive_iterations_body_executes_once_witness :
    (0 : ℤ) ≤ 0 ∧ 1 ≤ 1 ∧ 1 ≤ 1 ∧
    countEv (Event.stepChanged 1)
      (executeSteps ⟨1⟩ (loopProgram 0 1) Option.none (1 + 3)).1.events = 1 :=
  ⟨le_refl 0, le_refl 1, le_refl 1,
   nonpositive_iterations_body_executes_once ⟨1⟩ 0 1 1 (le_refl 0)
     (le_refl 1) (le_refl 1)⟩

end Chemyx
